import Mathlib

/-!
Verification of the mayakashi MAR archive builder.

This file gives a shallow embedding, in Lean 4, of the parts of the
mayakashi repository (a Rust program) that the verified claims are about:

* `src/format/index_file.rs` — the index container format
  (`parse_index_file`, `write_index_file`);
* `src/cmd/create.rs` — the chunking/compression planner (`compress_file`,
  `CHUNK_SIZE`), the walker-list sort, and the packing pipeline with its
  deduplication table and finalize step;
* `src/cmd/split.rs` — the shard splitter (`ChunkedFile`, the greedy
  bin-packing assignment, and the per-shard index writer).

Modelling conventions:

* Byte strings (file contents, paths, SHA-256 digests, serialized data)
  are `List Nat`; machine-integer truncation (`as u32` in Rust) is modelled
  explicitly with `% 2 ^ 32`.
* External pure collaborators — the LZ4 and Zstandard codecs, CRC-32 and
  SHA-256, and the protobuf (de)serializer — are opaque to the program
  logic, so the embedded functions are parameterized over them.  Claims
  about the program hold for every instantiation (or for instantiations
  satisfying stated round-trip/size facts about the real libraries).
* Fallible Rust code (`unwrap`, `assert!`) is modelled with `Option`:
  a panic is `none`.
* The packing worker pool of `create.rs` is modelled as a sequential fold
  over the file list.  Each claim settled here concerns only state that is
  mutated inside the program's mutex-protected critical sections
  (the known-hash set, the dedup table, the data-file append cursor), so a
  sequential linearization over an arbitrary file order is faithful to any
  interleaving of the workers.
* `FileEntry.info` is `Option<FileInfo>` in the protobuf schema; every use
  in the program unwraps it, so it is modelled as a plain field.
-/

namespace Mayakashi

/-- `CompressedMethod` from the protobuf schema: `Passthrough` (0),
`Lz4` (1), `Zstandard` (2). -/
inductive CompressedMethod where
  | passthrough
  | lz4
  | zstandard
deriving DecidableEq, Repr

/-- `ChunkInfo` from the protobuf schema (all fields `uint32`). -/
structure ChunkInfo where
  compressed_length : Nat
  compressed_method : CompressedMethod
  original_length : Nat
deriving DecidableEq, Repr

/-- `FileInfo` from the protobuf schema.  `modified_time` is an opaque
timestamp payload, modelled as a `Nat`. -/
structure FileInfo where
  path : List Nat
  chunks : List ChunkInfo
  chunks_crc32 : Nat
  chunks_sha256 : List Nat
  original_crc32 : Nat
  original_sha256 : List Nat
  modified_time : Nat
  priority : Nat
deriving DecidableEq, Repr

/-- `FileEntry` from the protobuf schema. -/
structure FileEntry where
  info : FileInfo
  file_index : Nat
  body_offset : Nat
  body_size : Nat
deriving DecidableEq, Repr

/-- `FileIndexFile` from the protobuf schema. -/
structure FileIndexFile where
  entries : List FileEntry
deriving DecidableEq, Repr

/-- Byte-wise lexicographic order on byte strings, as produced by Rust's
`Ord` on `String`/`[u8]` (`a.cmp(&b) != Greater`). -/
def lexLe : List Nat → List Nat → Bool
  | [], _ => true
  | _ :: _, [] => false
  | a :: as, b :: bs => if a < b then true else if b < a then false else lexLe as bs

/-- Big-endian bytes of a `u32` value (`u32::to_be_bytes`). -/
def be32 (v : Nat) : List Nat :=
  [v / 2 ^ 24 % 256, v / 2 ^ 16 % 256, v / 2 ^ 8 % 256, v % 256]

/-- `(len as u32).to_be_bytes()` — the truncating cast followed by
big-endian serialization. -/
def u32be (v : Nat) : List Nat := be32 (v % 2 ^ 32)

/-- `u32::from_be_bytes` on four bytes. -/
def beVal (b0 b1 b2 b3 : Nat) : Nat := ((b0 * 256 + b1) * 256 + b2) * 256 + b3

/-- The index container magic, `b"MARI"`. -/
def INDEX_MAGIC : List Nat := [77, 65, 82, 73]

/-- `write_index_file` from `src/format/index_file.rs`: protobuf-encode the
message, Zstandard-compress it (level 22), and emit
magic ++ compressed length (u32 BE, truncating cast) ++ raw length
(u32 BE, truncating cast) ++ compressed payload. -/
def write_index_file (zstdEncode : List Nat → List Nat)
    (protoEncode : FileIndexFile → List Nat) (file : FileIndexFile) : List Nat :=
  let index_file_bytes := protoEncode file
  let index_file_len := index_file_bytes.length
  let compressed := zstdEncode index_file_bytes
  INDEX_MAGIC ++ u32be compressed.length ++ u32be index_file_len ++ compressed

/-- `parse_index_file` from `src/format/index_file.rs`.  The Rust function
panics on failure (`unwrap` / `assert`); a panic is modelled as `none`.
`read_exact` of the 12 header bytes fails when fewer are available; the
payload is read with `take(compressed_len).read_to_end(..)`, which reads
*up to* `compressed_len` bytes and does not fail on a shorter input. -/
def parse_index_file (zstdDecode : List Nat → Option (List Nat))
    (protoDecode : List Nat → Option FileIndexFile) (input : List Nat) :
    Option FileIndexFile :=
  match input with
  | m0 :: m1 :: m2 :: m3 :: c0 :: c1 :: c2 :: c3 :: r0 :: r1 :: r2 :: r3 :: rest =>
    if [m0, m1, m2, m3] = INDEX_MAGIC then
      let compressed_len := beVal c0 c1 c2 c3
      let raw_len := beVal r0 r1 r2 r3
      let compressed := rest.take compressed_len
      match zstdDecode compressed with
      | some raw => if raw.length = raw_len then protoDecode raw else none
      | none => none
    else none
  | _ => none

/-- The value stored in the 32-bit big-endian `compressed_length` header
field (bytes 4–7) of an index container. -/
def headerClen (l : List Nat) : Nat :=
  match l with
  | _ :: _ :: _ :: _ :: c0 :: c1 :: c2 :: c3 :: _ => beVal c0 c1 c2 c3
  | _ => 0

/-- The value stored in the 32-bit big-endian `raw_length` header field
(bytes 8–11) of an index container. -/
def headerRlen (l : List Nat) : Nat :=
  match l with
  | _ :: _ :: _ :: _ :: _ :: _ :: _ :: _ :: r0 :: r1 :: r2 :: r3 :: _ => beVal r0 r1 r2 r3
  | _ => 0

/-- `CHUNK_SIZE` from `src/cmd/create.rs` line 51: `512 * 1024`. -/
def CHUNK_SIZE : Nat := 512 * 1024

/-- The planner's in-memory `Chunk` struct from `src/cmd/create.rs`. -/
structure Chunk where
  start : Nat
  original_size : Nat
  compressed : List Nat
  compressed_method : CompressedMethod
deriving DecidableEq, Repr

/-- The strides `for i in (0..len).step_by(CHUNK_SIZE)` of the chunked path
of `compress_file`, paired with the slice `input[i..min(i+CHUNK_SIZE,len)]`. -/
def chunkSlices (data : List Nat) (i : Nat) : List (Nat × List Nat) :=
  if data = [] then []
  else (i, data.take CHUNK_SIZE) :: chunkSlices (data.drop CHUNK_SIZE) (i + CHUNK_SIZE)
termination_by data.length
decreasing_by
  have hd : 0 < data.length := List.length_pos.mpr (by assumption)
  simp only [List.length_drop, CHUNK_SIZE]
  omega

/-- The per-stride body of the chunked path of `compress_file`: LZ4 for the
first stride (`i == 0`), Zstandard otherwise; keep the compressed form only
when it is smaller than `src.len() / 4 * 3`, else passthrough. -/
def compressSlice (lz4C zstdC : List Nat → List Nat) (p : Nat × List Nat) : Chunk :=
  let i := p.1
  let src := p.2
  let compressed := if i = 0 then lz4C src else zstdC src
  if compressed.length < src.length / 4 * 3 then
    { start := i, original_size := src.length, compressed := compressed,
      compressed_method := if i = 0 then CompressedMethod.lz4 else CompressedMethod.zstandard }
  else
    { start := i, original_size := src.length, compressed := src,
      compressed_method := CompressedMethod.passthrough }

/-- `compress_file` from `src/cmd/create.rs` (lines 63–166), parameterized
over the LZ4 HC-12 and Zstandard-22 compressors.

* input ≤ `CHUNK_SIZE`: try LZ4; keep it as the single chunk iff it is
  strictly smaller than the input;
* otherwise, input ≤ 8 MiB: try Zstandard; keep it as the single chunk iff
  strictly smaller, else a single passthrough chunk;
* otherwise: one chunk per `CHUNK_SIZE` stride via `compressSlice`
  (the `rayon` `par_iter().map().collect()` preserves stride order). -/
def compress_file (lz4C zstdC : List Nat → List Nat) (input_data : List Nat) : List Chunk :=
  if input_data.length ≤ CHUNK_SIZE ∧ (lz4C input_data).length < input_data.length then
    [{ start := 0, original_size := input_data.length, compressed := lz4C input_data,
       compressed_method := CompressedMethod.lz4 }]
  else if input_data.length ≤ 8 * 1024 * 1024 then
    if (zstdC input_data).length < input_data.length then
      [{ start := 0, original_size := input_data.length, compressed := zstdC input_data,
         compressed_method := CompressedMethod.zstandard }]
    else
      [{ start := 0, original_size := input_data.length, compressed := input_data,
         compressed_method := CompressedMethod.passthrough }]
  else
    (chunkSlices input_data 0).map (compressSlice lz4C zstdC)

/-- The walker's per-file record (`struct FileInfo` in `src/cmd/create.rs`,
line 26): absolute path and size from the directory metadata. -/
structure WalkFile where
  path : List Nat
  size : Nat
deriving DecidableEq, Repr

/-- Byte-wise path order as a relation, for the sorts in `create.rs`. -/
abbrev walkPathLe (a b : WalkFile) : Prop := lexLe a.path b.path = true

/-- `files.sort_by_key(|f| f.path.to_str().unwrap().to_string())` from
`src/cmd/create.rs` line 171: a stable sort of the walker's list, ascending
by path string.  Rust's stable sort is modelled by stable insertion sort. -/
def createSortFiles (files : List WalkFile) : List WalkFile :=
  files.insertionSort walkPathLe

/-- One file as seen by a packer worker: its path relative to the input
root (the walker yields absolute paths under the root, so the
`starts_with` assertion at `create.rs:248` always holds and the model
carries the stripped path directly), its content bytes, its modification
time, and whether its file name is `.DS_Store` (such files are skipped). -/
structure SrcFile where
  path : List Nat
  data : List Nat
  mtime : Nat
  dsStore : Bool
deriving DecidableEq, Repr

/-- `PartialFileInfo` from `src/cmd/create.rs` (line 198): a deduped file
waiting to be resolved against the dedup table at finalize. -/
structure PartialFileInfo where
  path : List Nat
  modified_time : Nat
  original_crc32 : Nat
  original_sha256 : List Nat
deriving DecidableEq, Repr

/-- Association-list lookup keyed by byte strings, modelling `HashMap`
lookups (`HashMap` inserts shadow older bindings; `cons` + first-match
lookup has the same semantics). -/
def alookup {α : Type} (k : List Nat) : List (List Nat × α) → Option α
  | [] => none
  | (k2, v) :: rest => if k = k2 then some v else alookup k rest

/-- The shared mutable state of the create pipeline: the `known_hashes`
set, the dedup table `hash_to_offsets`, the deduped-pending list, the
collected entries, and the data-file length (its append cursor). -/
structure CreateState where
  knownHashes : List (List Nat)
  table : List (List Nat × FileEntry)
  pending : List PartialFileInfo
  entries : List FileEntry
  datLen : Nat

/-- The initial create-pipeline state: empty sets, empty data file. -/
def CreateState.init : CreateState :=
  { knownHashes := [], table := [], pending := [], entries := [], datLen := 0 }

/-- The `ChunkInfo` records built from the planner's chunks
(`create.rs:275`): lengths go through `as u32` truncating casts. -/
def mkChunkInfos (chunks : List Chunk) : List ChunkInfo :=
  chunks.map fun c =>
    { compressed_length := c.compressed.length % 2 ^ 32,
      compressed_method := c.compressed_method,
      original_length := c.original_size % 2 ^ 32 }

/-- The concatenation of the compressed chunk bytes (`create.rs:280`). -/
def chunksConcat (chunks : List Chunk) : List Nat :=
  (chunks.map Chunk.compressed).flatten

/-- The `FileEntry` a packer worker commits for a non-deduped file
(`create.rs:272–324`): chunk infos from the planner's chunks, checksums of
the concatenated compressed bytes, the append offset (the data-file length
at write time) and the concatenation's length as `body_size`. -/
def packedEntry (crcF : List Nat → Nat) (shaF : List Nat → List Nat)
    (lz4C zstdC : List Nat → List Nat) (datLen : Nat) (f : SrcFile) : FileEntry :=
  { info := { path := f.path,
              chunks := mkChunkInfos (compress_file lz4C zstdC f.data),
              chunks_crc32 := crcF (chunksConcat (compress_file lz4C zstdC f.data)),
              chunks_sha256 := shaF (chunksConcat (compress_file lz4C zstdC f.data)),
              original_crc32 := crcF f.data, original_sha256 := shaF f.data,
              modified_time := f.mtime, priority := 0 },
    file_index := 0, body_offset := datLen,
    body_size := (chunksConcat (compress_file lz4C zstdC f.data)).length }

/-- One iteration of the packer worker loop (`create.rs:218–330`) for one
file: skip `.DS_Store`; hash; with `--dedup`, either record a pending
`PartialFileInfo` (hash already known) or register the hash; otherwise
plan chunks, append the compressed bytes at the data-file end, and record
the `FileEntry` (and the dedup-table binding when `--dedup`). -/
def createStep (crcF : List Nat → Nat) (shaF : List Nat → List Nat)
    (lz4C zstdC : List Nat → List Nat) (dedup : Bool)
    (st : CreateState) (f : SrcFile) : CreateState :=
  if f.dsStore then st
  else if dedup ∧ shaF f.data ∈ st.knownHashes then
    { st with pending := st.pending ++
        [{ path := f.path, modified_time := f.mtime,
           original_crc32 := crcF f.data, original_sha256 := shaF f.data }] }
  else
    { knownHashes := if dedup then shaF f.data :: st.knownHashes else st.knownHashes,
      table := if dedup then
          (shaF f.data, packedEntry crcF shaF lz4C zstdC st.datLen f) :: st.table
        else st.table,
      pending := st.pending,
      entries := st.entries ++ [packedEntry crcF shaF lz4C zstdC st.datLen f],
      datLen := st.datLen + (chunksConcat (compress_file lz4C zstdC f.data)).length }

/-- The finalize resolution of the deduped-pending list
(`create.rs:352–365`): look each pending record up in the dedup table
(`unwrap` — `none` if absent), assert matching SHA-256 and CRC-32, and emit
a copy of the committed entry with the pending record's path and
modification time substituted. -/
def resolvePending (table : List (List Nat × FileEntry)) :
    List PartialFileInfo → Option (List FileEntry)
  | [] => some []
  | p :: rest =>
    match alookup p.original_sha256 table with
    | none => none
    | some t =>
      if t.info.original_sha256 = p.original_sha256 ∧ t.info.original_crc32 = p.original_crc32 then
        (resolvePending table rest).map fun l =>
          { t with info := { t.info with path := p.path, modified_time := p.modified_time } } :: l
      else none

/-- Byte-wise path order on entries, for the finalize sort. -/
abbrev entryPathLe (a b : FileEntry) : Prop := lexLe a.info.path b.info.path = true

/-- The full create pipeline producing the finalized `FileIndexFile`
(`create.rs:169–374`, modelled sequentially): process every file, resolve
the deduped-pending list against the dedup table, and sort the collected
entries ascending by `info.path`
(`ees.sort_by(|a, b| a.info...path.cmp(&b.info...path))`). -/
def createIndex (crcF : List Nat → Nat) (shaF : List Nat → List Nat)
    (lz4C zstdC : List Nat → List Nat) (dedup : Bool)
    (files : List SrcFile) : Option FileIndexFile :=
  let st := files.foldl (createStep crcF shaF lz4C zstdC dedup) CreateState.init
  match resolvePending st.table st.pending with
  | none => none
  | some resolved => some { entries := (st.entries ++ resolved).insertionSort entryPathLe }

/-- The splitter's sort key for an entry (`split.rs:56–59`): the sum over
its chunks of `compressed_length`, with a zero `compressed_length` replaced
by `original_length`. -/
def entryWeight (e : FileEntry) : Nat :=
  (e.info.chunks.map fun c =>
    if c.compressed_length = 0 then c.original_length else c.compressed_length).sum

/-- The amount `ChunkedFile::add` actually accumulates (`split.rs:35–37`):
the plain sum of `compressed_length` over the chunks — unlike the sort key,
without the zero → `original_length` substitution. -/
def entrySize (e : FileEntry) : Nat :=
  (e.info.chunks.map ChunkInfo.compressed_length).sum

/-- `ChunkedFile` from `src/cmd/split.rs` (line 17): one output shard under
construction. -/
structure ChunkedFile where
  entries : List FileEntry
  well_known_hashes : List (List Nat)
  size : Nat
deriving Repr

/-- `ChunkedFile::new`. -/
def ChunkedFile.new : ChunkedFile := { entries := [], well_known_hashes := [], size := 0 }

instance : Inhabited ChunkedFile := ⟨ChunkedFile.new⟩

/-- `ChunkedFile::add` (`split.rs:32–40`): when the entry's
`original_sha256` is new to this shard, record it and grow the shard's
running size by the sum of the entry's chunk `compressed_length`s; the
entry itself is always appended. -/
def ChunkedFile.add (s : ChunkedFile) (entry : FileEntry) : ChunkedFile :=
  if entry.info.original_sha256 ∈ s.well_known_hashes then
    { s with entries := s.entries ++ [entry] }
  else
    { entries := s.entries ++ [entry],
      well_known_hashes := entry.info.original_sha256 :: s.well_known_hashes,
      size := s.size + entrySize entry }

/-- Ascending-weight order on entries, the key of
`entries.sort_by_cached_key(..)` in `split.rs:56`. -/
abbrev entryWeightLe (a b : FileEntry) : Prop := entryWeight a ≤ entryWeight b

/-- The splitter's entry ordering (`split.rs:56–60`): stable sort ascending
by `entryWeight`, then `reverse` — descending weight with ties reversed. -/
def sortEntriesForSplit (entries : List FileEntry) : List FileEntry :=
  (entries.insertionSort entryWeightLe).reverse

/-- `u64::MAX`, the initial `min_size` of the argmin scan in
`split.rs:81`. -/
def U64MAX : Nat := 2 ^ 64 - 1

/-- The argmin scan of `split.rs:81–88`: fold over the shards with
`(min_size, min_index)`, updating on a strictly smaller size. -/
def minIndexAux : List ChunkedFile → Nat → Nat × Nat → Nat × Nat
  | [], _, best => best
  | s :: rest, i, best =>
    minIndexAux rest (i + 1) (if s.size < best.1 then (s.size, i) else best)

/-- The index of the least-loaded shard (first one on ties), as computed by
the loop in `split.rs:81–88`. -/
def minIndex (shards : List ChunkedFile) : Nat := (minIndexAux shards 0 (U64MAX, 0)).2

/-- Replace the element at position `i` by `f` applied to it (out-of-range
indexes cannot occur in the modelled program: every index used is a valid
`already_well_known_hahes` binding or `min_index`). -/
def updateAt {α : Type} (i : Nat) (f : α → α) : List α → List α
  | [] => []
  | s :: rest =>
    match i with
    | 0 => f s :: rest
    | j + 1 => s :: updateAt j f rest

/-- The greedy dedup-aware assignment loop of `split.rs:72–91`: an entry
whose hash was already placed goes to the same shard; otherwise it goes to
the least-loaded shard and its hash is recorded there. -/
def assignLoop : List FileEntry → List ChunkedFile → List (List Nat × Nat) →
    List ChunkedFile × List (List Nat × Nat)
  | [], shards, seen => (shards, seen)
  | e :: rest, shards, seen =>
    match alookup e.info.original_sha256 seen with
    | some i => assignLoop rest (updateAt i (fun s => s.add e) shards) seen
    | none =>
      let i := minIndex shards
      assignLoop rest (updateAt i (fun s => s.add e) shards)
        ((e.info.original_sha256, i) :: seen)

/-- The shard assignment phase of `split::main`: `count` fresh shards, the
entries sorted descending by weight, then the greedy loop. -/
def splitAssign (entries : List FileEntry) (count : Nat) : List ChunkedFile :=
  (assignLoop (sortEntriesForSplit entries) (List.replicate count ChunkedFile.new) []).1

/-- The per-shard write loop of `split.rs:115–155`, restricted to the index
it produces (the byte copying into the shard `.dat` only moves payload and
is not part of any claim; `written` — the number of bytes it would copy —
is `Σ chunk.compressed_length`).  A shard-locally deduped entry reuses the
recorded offset; a first occurrence is written at the current cursor, and
`assert_eq!(in_entry.body_size, written)` is modelled as `none` on
mismatch. -/
def splitWriteLoop (wellKnown : List (List Nat × Nat)) (offset : Nat)
    (acc : List FileEntry) : List FileEntry → Option (List FileEntry)
  | [] => some acc
  | e :: rest =>
    match alookup e.info.original_sha256 wellKnown with
    | some off =>
      splitWriteLoop wellKnown offset
        (acc ++ [{ info := e.info, file_index := 0, body_offset := off,
                   body_size := e.body_size }]) rest
    | none =>
      let written := (e.info.chunks.map ChunkInfo.compressed_length).sum
      if e.body_size = written then
        splitWriteLoop ((e.info.original_sha256, offset) :: wellKnown) (offset + written)
          (acc ++ [{ info := e.info, file_index := 0, body_offset := offset,
                     body_size := written }]) rest
      else none

/-- The index written for one shard (`split.rs:103–157`): the shard's entry
list is reversed (`file.entries.reverse()`), then the write loop emits the
output entries in that order. -/
def splitShardIndex (s : ChunkedFile) : Option FileIndexFile :=
  (splitWriteLoop [] 0 [] s.entries.reverse).map FileIndexFile.mk

/-- The shard-writing loop of `split::main` (`split.rs:95–158`): write each
shard's index in turn, failing if any shard write fails. -/
def splitIndexesLoop : List ChunkedFile → Option (List FileIndexFile)
  | [] => some []
  | s :: rest =>
    match splitShardIndex s with
    | none => none
    | some I => (splitIndexesLoop rest).map fun l => I :: l

/-- All shard indexes written by `split::main` for a parsed input index and
a shard count (the shards are visited in reverse, `split.rs:95`). -/
def splitIndexes (entries : List FileEntry) (count : Nat) : Option (List FileIndexFile) :=
  splitIndexesLoop ((splitAssign entries count).reverse)

/-- The maximum of a list of naturals (0 for the empty list), used to
state the splitter's load-balance bound. -/
def maxNat (l : List Nat) : Nat := l.foldr max 0

/-- Invariant 1 of the spec: an entry's `body_size` equals the sum of
`compressed_length` over its chunks. -/
def sizeInv (e : FileEntry) : Prop :=
  e.body_size = (e.info.chunks.map ChunkInfo.compressed_length).sum

instance (e : FileEntry) : Decidable (sizeInv e) := by unfold sizeInv; infer_instance

/-! ### Concrete instantiations used by witnesses and counterexamples

The codec/hash/serializer parameters are instantiated with small concrete
functions.  Where a counterexample depends on a behaviour of the real
library, the instantiation reproduces a documented fact about it (noted at
the definition). -/

/-- Identity codec: a legitimate instantiation point for the compressor
parameters (claims proved for all codecs hold for it). -/
def idCodec : List Nat → List Nat := fun l => l

/-- Constant CRC-32 stand-in. -/
def crcZero : List Nat → Nat := fun _ => 0

/-- Identity hash stand-in for SHA-256 (equal data ↔ equal digest, which is
the property dedup relies on). -/
def shaIdent : List Nat → List Nat := fun d => d

/-- Stand-in for LZ4-HC on highly repetitive input: 64 repeated bytes
compress to well under 64 bytes (LZ4 emits one literal run plus one match),
modelled as a fixed 8-byte output. -/
def lz4Stub : List Nat → List Nat := fun _ => List.replicate 8 0

/-- 64 repeated bytes: a small, highly compressible input. -/
def c3Data : List Nat := List.replicate 64 7

/-- Stand-in for `zstd::decode_all`, recording the documented fact that
decoding an empty input yields an empty output (zero frames). -/
def zstdDecodeEmptyOnly : List Nat → Option (List Nat) :=
  fun l => if l = [] then some [] else none

/-- Stand-in for `prost` decoding, recording the documented fact that
decoding an empty buffer yields the default (empty) message. -/
def protoDecodeEmptyOnly : List Nat → Option FileIndexFile :=
  fun l => if l = [] then some { entries := [] } else none

/-- A header claiming a 5-byte compressed payload, followed by no payload
bytes at all. -/
def truncatedIndexInput : List Nat := [77, 65, 82, 73, 0, 0, 0, 5, 0, 0, 0, 0]

/-- Protobuf-encoder stand-in mapping the empty index to the empty
buffer. -/
def protoEncodeNil : FileIndexFile → List Nat := fun _ => []

/-- Protobuf-decoder stand-in inverse to `protoEncodeNil` on the empty
index. -/
def protoDecodeNil : List Nat → Option FileIndexFile := fun _ => some { entries := [] }

/-- Zstandard decoder stand-in inverse to the identity encoder. -/
def zstdDecodeId : List Nat → Option (List Nat) := fun l => some l

/-- The empty index message. -/
def emptyIndex : FileIndexFile := { entries := [] }

/-- Two input files with identical content (so identical hash) and
distinct paths `"a"`, `"b"`, for exercising the dedup path. -/
def demoFiles : List SrcFile :=
  [{ path := [97], data := [7], mtime := 0, dsStore := false },
   { path := [98], data := [7], mtime := 1, dsStore := false }]

/-- The committed entry the create pipeline produces for the first demo
file (single passthrough chunk of the 1-byte body). -/
def demoE1 : FileEntry :=
  { info := { path := [97],
              chunks := [{ compressed_length := 1,
                           compressed_method := CompressedMethod.passthrough,
                           original_length := 1 }],
              chunks_crc32 := 0, chunks_sha256 := [7],
              original_crc32 := 0, original_sha256 := [7],
              modified_time := 0, priority := 0 },
    file_index := 0, body_offset := 0, body_size := 1 }

/-- The dedup-resolved entry for the second demo file: `demoE1` with the
path and modification time substituted. -/
def demoE2 : FileEntry :=
  { info := { path := [98],
              chunks := [{ compressed_length := 1,
                           compressed_method := CompressedMethod.passthrough,
                           original_length := 1 }],
              chunks_crc32 := 0, chunks_sha256 := [7],
              original_crc32 := 0, original_sha256 := [7],
              modified_time := 1, priority := 0 },
    file_index := 0, body_offset := 0, body_size := 1 }

/-- The finalized index of the demo create run. -/
def demoF : FileIndexFile := { entries := [demoE1, demoE2] }

/-- An index entry with path `"a"` and a 10-byte passthrough body. -/
def exEntryA : FileEntry :=
  { info := { path := [97],
              chunks := [{ compressed_length := 10,
                           compressed_method := CompressedMethod.passthrough,
                           original_length := 10 }],
              chunks_crc32 := 0, chunks_sha256 := [1],
              original_crc32 := 0, original_sha256 := [1],
              modified_time := 0, priority := 0 },
    file_index := 0, body_offset := 0, body_size := 10 }

/-- An index entry with path `"b"` and a 5-byte passthrough body. -/
def exEntryB : FileEntry :=
  { info := { path := [98],
              chunks := [{ compressed_length := 5,
                           compressed_method := CompressedMethod.passthrough,
                           original_length := 5 }],
              chunks_crc32 := 0, chunks_sha256 := [2],
              original_crc32 := 0, original_sha256 := [2],
              modified_time := 0, priority := 0 },
    file_index := 0, body_offset := 10, body_size := 5 }

/-- The single shard index `split` writes for `[exEntryA, exEntryB]` with
`--count 1`: greedy assignment takes the heavier `exEntryA` first, the
shard's entry list is reversed before writing, so `exEntryB`'s rewrite
(now at offset 0) precedes `exEntryA`'s (at offset 5). -/
def exSplitOut : FileIndexFile :=
  { entries :=
      [{ info := exEntryB.info, file_index := 0, body_offset := 0, body_size := 5 },
       { info := exEntryA.info, file_index := 0, body_offset := 5, body_size := 10 }] }

/-! ## Theorems -/

theorem beVal_mod (v : Nat) :
    beVal (v % 2 ^ 32 / 2 ^ 24 % 256) (v % 2 ^ 32 / 2 ^ 16 % 256)
      (v % 2 ^ 32 / 2 ^ 8 % 256) (v % 2 ^ 32 % 256) = v % 2 ^ 32 := by
  unfold beVal
  omega

/-- C9 (amended): the parser's contract.  It fails when the first four
bytes differ from the magic `"MARI"` (this also covers inputs shorter than
the 12-byte header); on a well-formed header it reads *up to*
`compressed_length` payload bytes — a shorter payload is not itself an
error — and then fails exactly when the Zstandard decode fails or the
decoded length differs from `raw_length`, otherwise returning the
schema-decoded message. -/
theorem parse_index_file_contract (zd : List Nat → Option (List Nat))
    (pd : List Nat → Option FileIndexFile) :
    (∀ input : List Nat, input.take 4 ≠ INDEX_MAGIC →
      parse_index_file zd pd input = none) ∧
    (∀ clen rlen : Nat, ∀ body : List Nat, clen < 2 ^ 32 → rlen < 2 ^ 32 →
      parse_index_file zd pd (INDEX_MAGIC ++ u32be clen ++ u32be rlen ++ body) =
        match zd (body.take clen) with
        | some raw => if raw.length = rlen then pd raw else none
        | none => none) := by
  constructor
  · intro input hmagic
    match input with
    | [] => rfl
    | [_] => rfl
    | [_, _] => rfl
    | [_, _, _] => rfl
    | m0 :: m1 :: m2 :: m3 :: rest =>
      have hm : [m0, m1, m2, m3] ≠ INDEX_MAGIC := by
        simpa [List.take] using hmagic
      match rest with
      | [] => rfl
      | [_] => rfl
      | [_, _] => rfl
      | [_, _, _] => rfl
      | [_, _, _, _] => rfl
      | [_, _, _, _, _] => rfl
      | [_, _, _, _, _, _] => rfl
      | [_, _, _, _, _, _, _] => rfl
      | _ :: _ :: _ :: _ :: _ :: _ :: _ :: _ :: _ =>
        simp only [parse_index_file]
        exact if_neg hm
  · intro clen rlen body hc hr
    show parse_index_file zd pd
      (77 :: 65 :: 82 :: 73 ::
        (clen % 2 ^ 32 / 2 ^ 24 % 256) :: (clen % 2 ^ 32 / 2 ^ 16 % 256) ::
        (clen % 2 ^ 32 / 2 ^ 8 % 256) :: (clen % 2 ^ 32 % 256) ::
        (rlen % 2 ^ 32 / 2 ^ 24 % 256) :: (rlen % 2 ^ 32 / 2 ^ 16 % 256) ::
        (rlen % 2 ^ 32 / 2 ^ 8 % 256) :: (rlen % 2 ^ 32 % 256) :: body) = _
    have h1 : beVal (clen % 2 ^ 32 / 2 ^ 24 % 256) (clen % 2 ^ 32 / 2 ^ 16 % 256)
        (clen % 2 ^ 32 / 2 ^ 8 % 256) (clen % 2 ^ 32 % 256) = clen := by
      unfold beVal
      omega
    have h2 : beVal (rlen % 2 ^ 32 / 2 ^ 24 % 256) (rlen % 2 ^ 32 / 2 ^ 16 % 256)
        (rlen % 2 ^ 32 / 2 ^ 8 % 256) (rlen % 2 ^ 32 % 256) = rlen := by
      unfold beVal
      omega
    simp only [parse_index_file, INDEX_MAGIC, if_pos, h1, h2]

/-- C9 (counterexample): an input whose header announces a 5-byte
compressed payload but which ends right after the header is *successfully*
parsed — `take(n).read_to_end` reads up to `n` bytes without failing, the
empty payload Zstandard-decodes to the empty buffer (zero frames), whose
length matches the announced `raw_length = 0`, and the empty buffer
schema-decodes to the default message.  This refutes "reads exactly
`compressed_length` bytes of payload (failing if fewer are available)". -/
theorem parse_succeeds_on_short_payload :
    truncatedIndexInput.length = 12 ∧
    headerClen truncatedIndexInput = 5 ∧
    parse_index_file zstdDecodeEmptyOnly protoDecodeEmptyOnly truncatedIndexInput =
      some emptyIndex := by
  decide

/-- Witness for `parse_index_file_contract`: the magic clause applied to a
concrete four-zero-byte input. -/
theorem parse_index_file_contract_witness :
    parse_index_file zstdDecodeEmptyOnly protoDecodeEmptyOnly [0, 0, 0, 0] = none :=
  (parse_index_file_contract zstdDecodeEmptyOnly protoDecodeEmptyOnly).1
    [0, 0, 0, 0] (by decide)

/-- C1: round-trip of the index container.  For every `FileIndexFile`
whose schema encoding and its Zstandard compression are each smaller than
`2^32` bytes (so the truncating header casts are faithful), and for codec
and schema (de)serializers that invert each other on this payload — as the
real zstd and prost do — parsing the written bytes returns the original
message. -/
theorem index_write_parse_roundtrip (zstdEncode : List Nat → List Nat)
    (zstdDecode : List Nat → Option (List Nat))
    (protoEncode : FileIndexFile → List Nat)
    (protoDecode : List Nat → Option FileIndexFile) (F : FileIndexFile)
    (hzd : zstdDecode (zstdEncode (protoEncode F)) = some (protoEncode F))
    (hpd : protoDecode (protoEncode F) = some F)
    (hclen : (zstdEncode (protoEncode F)).length < 2 ^ 32)
    (hrlen : (protoEncode F).length < 2 ^ 32) :
    parse_index_file zstdDecode protoDecode
      (write_index_file zstdEncode protoEncode F) = some F := by
  have h := (parse_index_file_contract zstdDecode protoDecode).2
    (zstdEncode (protoEncode F)).length (protoEncode F).length
    (zstdEncode (protoEncode F)) hclen hrlen
  rw [List.take_length] at h
  unfold write_index_file
  rw [h, hzd]
  simp [hpd]

/-- Witness for `index_write_parse_roundtrip`: the empty index under
identity codecs and a nil protobuf encoder. -/
theorem index_write_parse_roundtrip_witness :
    parse_index_file zstdDecodeId protoDecodeNil
      (write_index_file idCodec protoEncodeNil emptyIndex) = some emptyIndex :=
  index_write_parse_roundtrip idCodec zstdDecodeId protoEncodeNil protoDecodeNil
    emptyIndex (by decide) (by decide) (by decide) (by decide)

/-- C10: the index writer stores the compressed-payload and raw-payload
lengths through truncating `as u32` casts: each 32-bit big-endian header
field equals the true length modulo `2^32`, is faithful exactly when that
length is below `2^32`, and the writer never fails — it emits the full
12-byte header plus payload for any payload size. -/
theorem write_index_header_truncation (zstdEncode : List Nat → List Nat)
    (protoEncode : FileIndexFile → List Nat) (F : FileIndexFile) :
    headerClen (write_index_file zstdEncode protoEncode F) =
      (zstdEncode (protoEncode F)).length % 2 ^ 32 ∧
    headerRlen (write_index_file zstdEncode protoEncode F) =
      (protoEncode F).length % 2 ^ 32 ∧
    (headerClen (write_index_file zstdEncode protoEncode F) =
        (zstdEncode (protoEncode F)).length ↔
      (zstdEncode (protoEncode F)).length < 2 ^ 32) ∧
    (headerRlen (write_index_file zstdEncode protoEncode F) =
        (protoEncode F).length ↔
      (protoEncode F).length < 2 ^ 32) ∧
    (write_index_file zstdEncode protoEncode F).length =
      12 + (zstdEncode (protoEncode F)).length := by
  have hc : headerClen (write_index_file zstdEncode protoEncode F) =
      (zstdEncode (protoEncode F)).length % 2 ^ 32 := by
    show headerClen (77 :: 65 :: 82 :: 73 :: _ :: _ :: _ :: _ :: _ :: _ :: _ :: _ ::
      zstdEncode (protoEncode F)) = _
    simp only [headerClen]
    exact beVal_mod _
  have hr : headerRlen (write_index_file zstdEncode protoEncode F) =
      (protoEncode F).length % 2 ^ 32 := by
    show headerRlen (77 :: 65 :: 82 :: 73 :: _ :: _ :: _ :: _ :: _ :: _ :: _ :: _ ::
      zstdEncode (protoEncode F)) = _
    simp only [headerRlen]
    exact beVal_mod _
  refine ⟨hc, hr, ?_, ?_, ?_⟩
  · rw [hc]
    constructor
    · intro h
      have := Nat.mod_lt (zstdEncode (protoEncode F)).length (by norm_num : 0 < 2 ^ 32)
      omega
    · exact Nat.mod_eq_of_lt
  · rw [hr]
    constructor
    · intro h
      have := Nat.mod_lt (protoEncode F).length (by norm_num : 0 < 2 ^ 32)
      omega
    · exact Nat.mod_eq_of_lt
  · simp only [write_index_file, u32be, be32, INDEX_MAGIC]
    simp [List.length_append]
    omega

theorem compressSlice_original_size (lz4C zstdC : List Nat → List Nat)
    (p : Nat × List Nat) :
    (compressSlice lz4C zstdC p).original_size = p.2.length := by
  unfold compressSlice
  simp only []
  split_ifs <;> rfl

theorem chunkSlices_src_le (data : List Nat) (i : Nat) :
    ∀ p ∈ chunkSlices data i, p.2.length ≤ CHUNK_SIZE := by
  induction data, i using chunkSlices.induct with
  | case1 i =>
    intro p hp
    rw [chunkSlices, if_pos rfl] at hp
    simp at hp
  | case2 data i h ih =>
    rw [chunkSlices, if_neg h]
    intro p hp
    rcases List.mem_cons.mp hp with h1 | h2
    · subst h1
      simp [List.length_take]
    · exact ih p h2

theorem chunkSlices_two (data : List Nat) (i : Nat) (h : CHUNK_SIZE < data.length) :
    2 ≤ (chunkSlices data i).length := by
  rw [chunkSlices, if_neg (by intro he; subst he; simp at h)]
  rw [chunkSlices, if_neg (by
    intro he
    have := congrArg List.length he
    simp [List.length_drop] at this
    have hc : (0 : Nat) < CHUNK_SIZE := by decide
    omega)]
  simp

/-- C4 (counterexample): the claim fixes `CHUNK_SIZE = 4 MiB`, but the
source (`create.rs:51`) sets it to 512 KiB. -/
theorem chunk_size_not_4mib : CHUNK_SIZE = 512 * 1024 ∧ CHUNK_SIZE ≠ 4 * 1024 * 1024 := by
  decide

/-- C4 (amended): the planner produces a multi-chunk plan — each chunk
covering up to `CHUNK_SIZE = 512 KiB` of original data — exactly when the
input size exceeds 8 MiB; the whole-file Zstandard output size plays no
role in the gating.  For inputs of at most 8 MiB it produces exactly one
chunk.  (Every plan is nonempty; any chunk larger than `CHUNK_SIZE` can
only be the single chunk of a small input.) -/
theorem compress_file_chunk_gating (lz4C zstdC : List Nat → List Nat)
    (input : List Nat) :
    ((compress_file lz4C zstdC input).length = 1 ↔
      input.length ≤ 8 * 1024 * 1024) ∧
    compress_file lz4C zstdC input ≠ [] ∧
    (∀ c ∈ compress_file lz4C zstdC input,
      c.original_size ≤ CHUNK_SIZE ∨ (compress_file lz4C zstdC input).length = 1) := by
  unfold compress_file
  split_ifs with h1 h2 h3
  · have hcs : input.length ≤ 8 * 1024 * 1024 := by
      have := h1.1
      unfold CHUNK_SIZE at this
      omega
    exact ⟨by simp [hcs], by simp, fun c _ => Or.inr rfl⟩
  · exact ⟨by simp [h2], by simp, fun c _ => Or.inr rfl⟩
  · exact ⟨by simp [h2], by simp, fun c _ => Or.inr rfl⟩
  · have hlen : CHUNK_SIZE < input.length := by
      unfold CHUNK_SIZE
      omega
    have h2le := chunkSlices_two input 0 hlen
    constructor
    · simp only [List.length_map]
      constructor
      · intro hone
        omega
      · intro hle
        omega
    constructor
    · intro he
      have := congrArg List.length he
      simp only [List.length_map, List.length_nil] at this
      omega
    · intro c hc
      rcases List.mem_map.mp hc with ⟨p, hp, hcp⟩
      left
      rw [← hcp, compressSlice_original_size]
      exact chunkSlices_src_le input 0 p hp

/-- Witness for `compress_file_chunk_gating`: a 3-byte input yields a
single chunk, and that chunk satisfies the chunk-size disjunction. -/
theorem compress_file_chunk_gating_witness :
    (compress_file idCodec idCodec [0, 0, 0]).length = 1 ∧
    (({ start := 0, original_size := 3, compressed := [0, 0, 0],
        compressed_method := CompressedMethod.passthrough } : Chunk).original_size ≤
          CHUNK_SIZE ∨
      (compress_file idCodec idCodec [0, 0, 0]).length = 1) :=
  ⟨(compress_file_chunk_gating idCodec idCodec [0, 0, 0]).1.mpr (by decide),
   (compress_file_chunk_gating idCodec idCodec [0, 0, 0]).2.2 _ (by decide)⟩

/-- C3 (counterexample): a 64-byte repetitive input (at most 8 MiB) whose
LZ4 compression is smaller than the input gets a single `Lz4` chunk — the
planner does choose a codec other than Zstandard/Passthrough for small
inputs, refuting "no other codec is ever chosen for such inputs". -/
theorem small_file_planner_picks_lz4 :
    c3Data.length ≤ 8 * 1024 * 1024 ∧
    (compress_file lz4Stub idCodec c3Data).map Chunk.compressed_method =
      [CompressedMethod.lz4] := by
  decide

/-- C3 (amended): for every input of size at most 8 MiB the planner
returns exactly one chunk starting at offset 0 covering the whole input;
that chunk is `Lz4` when the input is at most `CHUNK_SIZE = 512 KiB` and
its LZ4 compression is strictly smaller than the input, otherwise
`Zstandard` when the whole-input Zstandard compression is strictly
smaller, and otherwise `Passthrough`. -/
theorem compress_file_small_single_chunk (lz4C zstdC : List Nat → List Nat)
    (input : List Nat) (h : input.length ≤ 8 * 1024 * 1024) :
    compress_file lz4C zstdC input =
      [if input.length ≤ CHUNK_SIZE ∧ (lz4C input).length < input.length then
        { start := 0, original_size := input.length, compressed := lz4C input,
          compressed_method := CompressedMethod.lz4 }
       else if (zstdC input).length < input.length then
        { start := 0, original_size := input.length, compressed := zstdC input,
          compressed_method := CompressedMethod.zstandard }
       else
        { start := 0, original_size := input.length, compressed := input,
          compressed_method := CompressedMethod.passthrough }] := by
  unfold compress_file
  split_ifs with h1 h2 <;> simp_all

/-- Witness for `compress_file_small_single_chunk`: a 2-byte input under
identity codecs becomes a single passthrough chunk. -/
theorem compress_file_small_single_chunk_witness :
    compress_file idCodec idCodec [5, 6] =
      [{ start := 0, original_size := 2, compressed := [5, 6],
         compressed_method := CompressedMethod.passthrough }] := by
  have h := compress_file_small_single_chunk idCodec idCodec [5, 6] (by decide)
  rw [h]
  decide

theorem lexLe_total : ∀ a b : List Nat, lexLe a b = true ∨ lexLe b a = true
  | [], _ => Or.inl rfl
  | _ :: _, [] => Or.inr rfl
  | a :: as, b :: bs => by
    simp only [lexLe]
    rcases Nat.lt_trichotomy a b with h | h | h
    · left
      simp [h]
    · subst h
      simpa using lexLe_total as bs
    · right
      simp [h]

theorem lexLe_trans : ∀ a b c : List Nat,
    lexLe a b = true → lexLe b c = true → lexLe a c = true
  | [], _, _, _, _ => rfl
  | _ :: _, [], _, h1, _ => by simp [lexLe] at h1
  | _ :: _, _ :: _, [], _, h2 => by simp [lexLe] at h2
  | a :: as, b :: bs, c :: cs, h1, h2 => by
    simp only [lexLe] at h1 h2 ⊢
    rcases Nat.lt_trichotomy a c with h | h | h
    · simp [h]
    · subst h
      split_ifs at h1 h2 ⊢ <;> try omega
      exact lexLe_trans as bs cs h1 h2
    · exfalso
      split_ifs at h1 h2 <;> simp_all <;> omega

/-- C5 (counterexample): the create command sorts the walker's list by
*path*: on two files where the lexicographically first path carries the
smaller size, the sorted list starts with the smaller file — not the
larger one as size-descending order would require. -/
theorem walker_sort_not_by_size :
    createSortFiles
        [{ path := [98], size := 5 }, { path := [97], size := 1 }] =
      [{ path := [97], size := 1 }, { path := [98], size := 5 }] ∧
    ¬ List.Sorted (fun a b : WalkFile => b.size ≤ a.size)
        (createSortFiles
          [{ path := [98], size := 5 }, { path := [97], size := 1 }]) := by
  decide

/-- C5 (amended): before workers start dequeuing, the create command sorts
the walker's file list by path (byte-wise, ascending) — a stable
permutation of the walked list — and workers pop files from the head of
that queue (`VecDeque::pop_front`). -/
theorem walker_sort_by_path (files : List WalkFile) :
    List.Sorted walkPathLe (createSortFiles files) ∧
    (createSortFiles files).Perm files := by
  refine ⟨?_, List.perm_insertionSort walkPathLe files⟩
  haveI : IsTotal WalkFile walkPathLe := ⟨fun a b => lexLe_total a.path b.path⟩
  haveI : IsTrans WalkFile walkPathLe := ⟨fun a b c => lexLe_trans a.path b.path c.path⟩
  exact List.sorted_insertionSort walkPathLe files

/-- C2 (counterexample): a two-entry index split into one shard.  The
greedy assignment visits entries by descending weight, the shard's entry
list is reversed before writing, so the written shard index lists the
path-`"b"` entry before the path-`"a"` entry: a shard `.idx` written by
the split command is not sorted by `info.path`. -/
theorem split_shard_index_not_path_sorted :
    splitIndexes [exEntryA, exEntryB] 1 = some [exSplitOut] ∧
    ¬ List.Sorted entryPathLe exSplitOut.entries := by
  decide

/-- C2 (amended): every finalized `FileIndexFile` written by the *create*
command has its entries sorted ascending by `info.path` under byte-wise
lexicographic order.  (Shard indexes written by the split command are in
the splitter's ascending-weight assignment order instead, which need not
be path-sorted — see the counterexample.) -/
theorem create_index_entries_path_sorted (crcF : List Nat → Nat)
    (shaF : List Nat → List Nat) (lz4C zstdC : List Nat → List Nat)
    (dedup : Bool) (files : List SrcFile) (F : FileIndexFile)
    (h : createIndex crcF shaF lz4C zstdC dedup files = some F) :
    List.Sorted entryPathLe F.entries := by
  unfold createIndex at h
  simp only [] at h
  split at h
  · exact Option.noConfusion h
  · have hF := Option.some.inj h
    subst hF
    haveI : IsTotal FileEntry entryPathLe :=
      ⟨fun a b => lexLe_total a.info.path b.info.path⟩
    haveI : IsTrans FileEntry entryPathLe :=
      ⟨fun a b c => lexLe_trans a.info.path b.info.path c.info.path⟩
    exact List.sorted_insertionSort entryPathLe _

/-- Witness for `create_index_entries_path_sorted`: the two-file demo run
(with dedup) finalizes to `demoF`, whose entries are path-sorted. -/
theorem create_index_entries_path_sorted_witness :
    List.Sorted entryPathLe demoF.entries :=
  create_index_entries_path_sorted crcZero shaIdent idCodec idCodec true
    demoFiles demoF (by decide)

theorem foldl_inv {α β : Type} {P : α → Prop} {g : α → β → α}
    (hg : ∀ a b, P a → P (g a b)) :
    ∀ (l : List β) (a : α), P a → P (l.foldl g a)
  | [], _, h => h
  | b :: l, a, h => foldl_inv hg l (g a b) (hg a b h)

theorem alookup_some {α : Type} {k : List Nat} {v : α} :
    ∀ {l : List (List Nat × α)}, alookup k l = some v → ∃ kv ∈ l, kv.2 = v := by
  intro l
  induction l with
  | nil => intro h; exact Option.noConfusion h
  | cons kv rest ih =>
    intro h
    unfold alookup at h
    split_ifs at h with hk
    · exact ⟨kv, List.mem_cons_self kv rest, Option.some.inj h⟩
    · rcases ih h with ⟨kv2, hm, hv⟩
      exact ⟨kv2, List.mem_cons_of_mem kv hm, hv⟩

theorem createStep_dedup_inv (crcF : List Nat → Nat) (shaF : List Nat → List Nat)
    (lz4C zstdC : List Nat → List Nat) (st : CreateState) (f : SrcFile)
    (h1 : ∀ e ∈ st.entries, alookup e.info.original_sha256 st.table = some e)
    (h2 : ∀ kv ∈ st.table, kv.2.info.original_sha256 = kv.1)
    (h3 : ∀ e ∈ st.entries, e.info.original_sha256 ∈ st.knownHashes) :
    (∀ e ∈ (createStep crcF shaF lz4C zstdC true st f).entries,
      alookup e.info.original_sha256 (createStep crcF shaF lz4C zstdC true st f).table =
        some e) ∧
    (∀ kv ∈ (createStep crcF shaF lz4C zstdC true st f).table,
      kv.2.info.original_sha256 = kv.1) ∧
    (∀ e ∈ (createStep crcF shaF lz4C zstdC true st f).entries,
      e.info.original_sha256 ∈ (createStep crcF shaF lz4C zstdC true st f).knownHashes) := by
  unfold createStep
  split_ifs with hds hdup htrue
  case neg => exact absurd rfl htrue
  · exact ⟨h1, h2, h3⟩
  · exact ⟨h1, h2, h3⟩
  · have hsha : shaF f.data ∉ st.knownHashes := by
      intro hmem
      exact hdup ⟨rfl, hmem⟩
    refine ⟨?_, ?_, ?_⟩
    · intro e he
      rcases List.mem_append.mp he with hold | hnew
      · have hne : e.info.original_sha256 ≠ shaF f.data := by
          intro heq
          exact hsha (heq ▸ h3 e hold)
        show alookup e.info.original_sha256
          ((shaF f.data, packedEntry crcF shaF lz4C zstdC st.datLen f) :: st.table) = some e
        unfold alookup
        rw [if_neg hne]
        exact h1 e hold
      · have he2 : e = packedEntry crcF shaF lz4C zstdC st.datLen f :=
          List.mem_singleton.mp hnew
        subst he2
        show alookup (shaF f.data)
          ((shaF f.data, packedEntry crcF shaF lz4C zstdC st.datLen f) :: st.table) = _
        unfold alookup
        rw [if_pos rfl]
    · intro kv hkv
      rcases List.mem_cons.mp (by simpa using hkv) with hh | ht
      · subst hh
        rfl
      · exact h2 kv ht
    · intro e he
      rcases List.mem_append.mp he with hold | hnew
      · exact List.mem_cons_of_mem _ (h3 e hold)
      · have he2 : e = packedEntry crcF shaF lz4C zstdC st.datLen f :=
          List.mem_singleton.mp hnew
        subst he2
        exact List.mem_cons_self _ _

theorem resolvePending_traced (table : List (List Nat × FileEntry)) :
    ∀ (pending : List PartialFileInfo) (l : List FileEntry),
    resolvePending table pending = some l →
    ∀ e ∈ l, ∃ t, alookup e.info.original_sha256 table = some t ∧
      e.body_offset = t.body_offset ∧ e.body_size = t.body_size ∧
      e.info.chunks = t.info.chunks := by
  intro pending
  induction pending with
  | nil =>
    intro l h e he
    have : l = [] := (Option.some.inj h).symm
    subst this
    exact absurd he (List.not_mem_nil e)
  | cons p rest ih =>
    intro l h e he
    unfold resolvePending at h
    revert h
    cases halk : alookup p.original_sha256 table with
    | none => intro h; exact Option.noConfusion h
    | some t =>
      intro h
      simp only [] at h
      split_ifs at h with hassert
      · rcases Option.map_eq_some'.mp h with ⟨l2, hl2, hcons⟩
        subst hcons
        rcases List.mem_cons.mp he with hh | htail
        · subst hh
          refine ⟨t, ?_, rfl, rfl, rfl⟩
          show alookup t.info.original_sha256 table = some t
          rw [hassert.1]
          exact halk
        · exact ih l2 hl2 e htail

/-- C6: with `--dedup`, any two entries of the finalized index that share
`info.original_sha256` share `body_offset` and `body_size` and have
identical chunk lists (hence the same length and the same per-chunk
`compressed_length`, `original_length` and `compressed_method`): each
distinct hash is packed exactly once, and every other occurrence is
resolved at finalize from the dedup table, copying those fields. -/
theorem create_dedup_entries_share_body (crcF : List Nat → Nat)
    (shaF : List Nat → List Nat) (lz4C zstdC : List Nat → List Nat)
    (files : List SrcFile) (F : FileIndexFile)
    (h : createIndex crcF shaF lz4C zstdC true files = some F) :
    ∀ e1 ∈ F.entries, ∀ e2 ∈ F.entries,
      e1.info.original_sha256 = e2.info.original_sha256 →
      e1.body_offset = e2.body_offset ∧ e1.body_size = e2.body_size ∧
        e1.info.chunks = e2.info.chunks := by
  have hinv := foldl_inv (P := fun st : CreateState =>
      (∀ e ∈ st.entries, alookup e.info.original_sha256 st.table = some e) ∧
      (∀ kv ∈ st.table, kv.2.info.original_sha256 = kv.1) ∧
      (∀ e ∈ st.entries, e.info.original_sha256 ∈ st.knownHashes))
    (fun st f hst => createStep_dedup_inv crcF shaF lz4C zstdC st f hst.1 hst.2.1 hst.2.2)
    files CreateState.init
    ⟨fun e he => absurd he (List.not_mem_nil e),
     fun kv hkv => absurd hkv (List.not_mem_nil kv),
     fun e he => absurd he (List.not_mem_nil e)⟩
  unfold createIndex at h
  simp only [] at h
  revert h
  cases hres : resolvePending
      (List.foldl (createStep crcF shaF lz4C zstdC true) CreateState.init files).table
      (List.foldl (createStep crcF shaF lz4C zstdC true) CreateState.init files).pending with
  | none => intro h; exact Option.noConfusion h
  | some resolved =>
    intro h
    have hF := Option.some.inj h
    subst hF
    intro e1 he1 e2 he2 hsha
    have htraced : ∀ e ∈ (List.foldl (createStep crcF shaF lz4C zstdC true)
        CreateState.init files).entries ++ resolved,
        ∃ t, alookup e.info.original_sha256
            (List.foldl (createStep crcF shaF lz4C zstdC true)
              CreateState.init files).table = some t ∧
          e.body_offset = t.body_offset ∧ e.body_size = t.body_size ∧
          e.info.chunks = t.info.chunks := by
      intro e he
      rcases List.mem_append.mp he with hdirect | hres2
      · exact ⟨e, hinv.1 e hdirect, rfl, rfl, rfl⟩
      · exact resolvePending_traced _ _ resolved hres e hres2
    rcases htraced e1 ((List.mem_insertionSort entryPathLe).mp he1) with
      ⟨t1, ht1, hoff1, hsz1, hch1⟩
    rcases htraced e2 ((List.mem_insertionSort entryPathLe).mp he2) with
      ⟨t2, ht2, hoff2, hsz2, hch2⟩
    rw [hsha] at ht1
    have ht12 : t1 = t2 := Option.some.inj (ht1.symm.trans ht2)
    subst ht12
    exact ⟨hoff1.trans hoff2.symm, hsz1.trans hsz2.symm, hch1.trans hch2.symm⟩

/-- Witness for `create_dedup_entries_share_body`: the two-file demo run
with identical content; the two finalized entries (paths `"a"` and `"b"`)
share offset, size and chunks. -/
theorem create_dedup_entries_share_body_witness :
    demoE1.body_offset = demoE2.body_offset ∧ demoE1.body_size = demoE2.body_size ∧
      demoE1.info.chunks = demoE2.info.chunks :=
  create_dedup_entries_share_body crcZero shaIdent idCodec idCodec demoFiles demoF
    (by decide) demoE1 (by decide) demoE2 (by decide) (by decide)

theorem compressSlice_compressed_le (lz4C zstdC : List Nat → List Nat)
    (p : Nat × List Nat) (h : p.2.length ≤ CHUNK_SIZE) :
    (compressSlice lz4C zstdC p).compressed.length ≤ CHUNK_SIZE := by
  have hcs : CHUNK_SIZE = 524288 := rfl
  unfold compressSlice
  simp only []
  split_ifs <;> dsimp only [] <;> omega

theorem compress_file_chunk_lt (lz4C zstdC : List Nat → List Nat) (input : List Nat) :
    ∀ c ∈ compress_file lz4C zstdC input, c.compressed.length < 2 ^ 32 := by
  have hcs : CHUNK_SIZE = 524288 := rfl
  unfold compress_file
  split_ifs with h1 h2 h3
  · intro c hc
    have hc2 : c = _ := List.mem_singleton.mp hc
    subst hc2
    dsimp only []
    have ha := h1.1
    have hb := h1.2
    omega
  · intro c hc
    have hc2 : c = _ := List.mem_singleton.mp hc
    subst hc2
    dsimp only []
    omega
  · intro c hc
    have hc2 : c = _ := List.mem_singleton.mp hc
    subst hc2
    dsimp only []
    omega
  · intro c hc
    rcases List.mem_map.mp hc with ⟨p, hp, hcp⟩
    subst hcp
    have hsrc := chunkSlices_src_le input 0 p hp
    have := compressSlice_compressed_le lz4C zstdC p hsrc
    omega

theorem packedEntry_sizeInv (crcF : List Nat → Nat) (shaF : List Nat → List Nat)
    (lz4C zstdC : List Nat → List Nat) (datLen : Nat) (f : SrcFile) :
    sizeInv (packedEntry crcF shaF lz4C zstdC datLen f) := by
  unfold sizeInv packedEntry chunksConcat mkChunkInfos
  simp only [List.length_flatten, List.map_map]
  congr 1
  apply List.map_congr_left
  intro c hc
  exact (Nat.mod_eq_of_lt (compress_file_chunk_lt lz4C zstdC f.data c hc)).symm

theorem createStep_sizeInv (crcF : List Nat → Nat) (shaF : List Nat → List Nat)
    (lz4C zstdC : List Nat → List Nat) (dedup : Bool) (st : CreateState) (f : SrcFile)
    (h1 : ∀ e ∈ st.entries, sizeInv e) (h2 : ∀ kv ∈ st.table, sizeInv kv.2) :
    (∀ e ∈ (createStep crcF shaF lz4C zstdC dedup st f).entries, sizeInv e) ∧
    (∀ kv ∈ (createStep crcF shaF lz4C zstdC dedup st f).table, sizeInv kv.2) := by
  unfold createStep
  split_ifs with hds hdup hdd
  · exact ⟨h1, h2⟩
  · exact ⟨h1, h2⟩
  · constructor
    · intro e he
      rcases List.mem_append.mp he with hold | hnew
      · exact h1 e hold
      · have he2 : e = packedEntry crcF shaF lz4C zstdC st.datLen f :=
          List.mem_singleton.mp hnew
        subst he2
        exact packedEntry_sizeInv crcF shaF lz4C zstdC st.datLen f
    · intro kv hkv
      rcases List.mem_cons.mp (by simpa using hkv) with hh | ht
      · subst hh
        exact packedEntry_sizeInv crcF shaF lz4C zstdC st.datLen f
      · exact h2 kv ht
  · constructor
    · intro e he
      rcases List.mem_append.mp he with hold | hnew
      · exact h1 e hold
      · have he2 : e = packedEntry crcF shaF lz4C zstdC st.datLen f :=
          List.mem_singleton.mp hnew
        subst he2
        exact packedEntry_sizeInv crcF shaF lz4C zstdC st.datLen f
    · exact h2

theorem resolvePending_sizeInv (table : List (List Nat × FileEntry))
    (htable : ∀ kv ∈ table, sizeInv kv.2) :
    ∀ (pending : List PartialFileInfo) (l : List FileEntry),
    resolvePending table pending = some l → ∀ e ∈ l, sizeInv e := by
  intro pending
  induction pending with
  | nil =>
    intro l h e he
    have : l = [] := (Option.some.inj h).symm
    subst this
    exact absurd he (List.not_mem_nil e)
  | cons p rest ih =>
    intro l h e he
    unfold resolvePending at h
    revert h
    cases halk : alookup p.original_sha256 table with
    | none => intro h; exact Option.noConfusion h
    | some t =>
      intro h
      simp only [] at h
      split_ifs at h with hassert
      · rcases Option.map_eq_some'.mp h with ⟨l2, hl2, hcons⟩
        subst hcons
        rcases List.mem_cons.mp he with hh | htail
        · subst hh
          rcases alookup_some halk with ⟨kv, hkv, hv⟩
          have := htable kv hkv
          rw [hv] at this
          exact this
        · exact ih l2 hl2 e htail

theorem mem_updateAt {α : Type} (f : α → α) :
    ∀ (i : Nat) (l : List α) (x : α), x ∈ updateAt i f l →
      x ∈ l ∨ ∃ y, y ∈ l ∧ x = f y := by
  intro i l
  induction l generalizing i with
  | nil =>
    intro x hx
    simp [updateAt] at hx
  | cons a as ih =>
    intro x hx
    cases i with
    | zero =>
      unfold updateAt at hx
      rcases List.mem_cons.mp hx with hh | ht
      · exact Or.inr ⟨a, List.mem_cons_self a as, hh⟩
      · exact Or.inl (List.mem_cons_of_mem a ht)
    | succ j =>
      unfold updateAt at hx
      rcases List.mem_cons.mp hx with hh | ht
      · exact Or.inl (hh ▸ List.mem_cons_self a as)
      · rcases ih j x ht with hl | ⟨y, hy, hxy⟩
        · exact Or.inl (List.mem_cons_of_mem a hl)
        · exact Or.inr ⟨y, List.mem_cons_of_mem a hy, hxy⟩

theorem ChunkedFile.add_entries (s : ChunkedFile) (e : FileEntry) :
    (s.add e).entries = s.entries ++ [e] := by
  unfold ChunkedFile.add
  split_ifs <;> rfl

theorem assignLoop_entries_sub :
    ∀ (es : List FileEntry) (shards : List ChunkedFile)
      (seen : List (List Nat × Nat)) (s : ChunkedFile) (e : FileEntry),
      s ∈ (assignLoop es shards seen).1 → e ∈ s.entries →
      (∃ s0 ∈ shards, e ∈ s0.entries) ∨ e ∈ es := by
  intro es
  induction es with
  | nil =>
    intro shards seen s e hs he
    exact Or.inl ⟨s, hs, he⟩
  | cons e0 rest ih =>
    intro shards seen s e hs he
    unfold assignLoop at hs
    have hstep : ∀ (i : Nat) (seen2 : List (List Nat × Nat)),
        s ∈ (assignLoop rest (updateAt i (fun s2 => s2.add e0) shards) seen2).1 →
        (∃ s0 ∈ shards, e ∈ s0.entries) ∨ e ∈ e0 :: rest := by
      intro i seen2 hs2
      rcases ih (updateAt i (fun s2 => s2.add e0) shards) seen2 s e hs2 he with hl | hr
      · rcases hl with ⟨s0, hs0, he0⟩
        rcases mem_updateAt (fun s2 => s2.add e0) i shards s0 hs0 with hin | ⟨y, hy, hsy⟩
        · exact Or.inl ⟨s0, hin, he0⟩
        · subst hsy
          rw [ChunkedFile.add_entries] at he0
          rcases List.mem_append.mp he0 with hyy | hee
          · exact Or.inl ⟨y, hy, hyy⟩
          · exact Or.inr (List.mem_singleton.mp hee ▸ List.mem_cons_self e0 rest)
      · exact Or.inr (List.mem_cons_of_mem e0 hr)
    revert hs
    cases alookup e0.info.original_sha256 seen with
    | some i => exact hstep i seen
    | none => exact hstep (minIndex shards) ((e0.info.original_sha256, minIndex shards) :: seen)

theorem splitAssign_entries_sub (entries : List FileEntry) (count : Nat) :
    ∀ s ∈ splitAssign entries count, ∀ e ∈ s.entries, e ∈ entries := by
  intro s hs e he
  unfold splitAssign at hs
  rcases assignLoop_entries_sub (sortEntriesForSplit entries)
      (List.replicate count ChunkedFile.new) [] s e hs he with hl | hr
  · rcases hl with ⟨s0, hs0, he0⟩
    have : s0 = ChunkedFile.new := List.eq_of_mem_replicate hs0
    subst this
    exact absurd he0 (List.not_mem_nil e)
  · unfold sortEntriesForSplit at hr
    have := List.mem_reverse.mp hr
    exact (List.mem_insertionSort entryWeightLe).mp this

theorem splitWriteLoop_sizeInv :
    ∀ (es : List FileEntry) (wk : List (List Nat × Nat)) (off : Nat)
      (acc out : List FileEntry),
      (∀ e ∈ es, sizeInv e) → (∀ e ∈ acc, sizeInv e) →
      splitWriteLoop wk off acc es = some out → ∀ e ∈ out, sizeInv e := by
  intro es
  induction es with
  | nil =>
    intro wk off acc out _ hacc h
    have : acc = out := Option.some.inj h
    subst this
    exact hacc
  | cons e0 rest ih =>
    intro wk off acc out hes hacc h
    unfold splitWriteLoop at h
    revert h
    cases alookup e0.info.original_sha256 wk with
    | some off2 =>
      intro h
      refine ih wk off _ out (fun e he => hes e (List.mem_cons_of_mem e0 he)) ?_ h
      intro e he
      rcases List.mem_append.mp he with hold | hnew
      · exact hacc e hold
      · have he2 : e = _ := List.mem_singleton.mp hnew
        subst he2
        show e0.body_size = _
        exact hes e0 (List.mem_cons_self e0 rest)
    | none =>
      intro h
      simp only [] at h
      split_ifs at h with hbs
      refine ih _ _ _ out (fun e he => hes e (List.mem_cons_of_mem e0 he)) ?_ h
      intro e he
      rcases List.mem_append.mp he with hold | hnew
      · exact hacc e hold
      · have he2 : e = _ := List.mem_singleton.mp hnew
        subst he2
        rfl

theorem splitIndexesLoop_sizeInv :
    ∀ (shards : List ChunkedFile) (idxs : List FileIndexFile),
      (∀ s ∈ shards, ∀ e ∈ s.entries, sizeInv e) →
      splitIndexesLoop shards = some idxs →
      ∀ I ∈ idxs, ∀ e ∈ I.entries, sizeInv e := by
  intro shards
  induction shards with
  | nil =>
    intro idxs _ h I hI
    have : ([] : List FileIndexFile) = idxs := Option.some.inj h
    subst this
    exact absurd hI (List.not_mem_nil I)
  | cons s rest ih =>
    intro idxs hall h
    unfold splitIndexesLoop at h
    revert h
    cases hsi : splitShardIndex s with
    | none => intro h; exact Option.noConfusion h
    | some I0 =>
      intro h
      rcases Option.map_eq_some'.mp h with ⟨l2, hl2, hcons⟩
      subst hcons
      intro I hI
      rcases List.mem_cons.mp hI with hh | ht
      · subst hh
        unfold splitShardIndex at hsi
        rcases Option.map_eq_some'.mp hsi with ⟨out, hout, hI0⟩
        subst hI0
        intro e he
        refine splitWriteLoop_sizeInv s.entries.reverse [] 0 [] out ?_ ?_ hout e he
        · intro e2 he2
          exact hall s (List.mem_cons_self s rest) e2 (List.mem_reverse.mp he2)
        · intro e2 he2
          exact absurd he2 (List.not_mem_nil e2)
      · exact ih l2 (fun s2 hs2 => hall s2 (List.mem_cons_of_mem s hs2)) hl2 I ht

/-- C7: every `FileEntry` the program constructs has `body_size` equal to
the sum of `compressed_length` over its chunks.  For the create command
this is unconditional (both directly packed and dedup-resolved entries);
for the split command it holds for every entry of every written shard
index whenever the input index's entries satisfy it (as indexes written by
create do; `split` additionally asserts it for each first occurrence via
`assert_eq!(in_entry.body_size, written)`). -/
theorem entry_body_size_sum :
    (∀ (crcF : List Nat → Nat) (shaF : List Nat → List Nat)
        (lz4C zstdC : List Nat → List Nat) (dedup : Bool)
        (files : List SrcFile) (F : FileIndexFile),
      createIndex crcF shaF lz4C zstdC dedup files = some F →
      ∀ e ∈ F.entries, sizeInv e) ∧
    (∀ (entries : List FileEntry) (count : Nat) (idxs : List FileIndexFile),
      (∀ e ∈ entries, sizeInv e) → splitIndexes entries count = some idxs →
      ∀ I ∈ idxs, ∀ e ∈ I.entries, sizeInv e) := by
  constructor
  · intro crcF shaF lz4C zstdC dedup files F h e he
    have hinv := foldl_inv (P := fun st : CreateState =>
        (∀ e2 ∈ st.entries, sizeInv e2) ∧ (∀ kv ∈ st.table, sizeInv kv.2))
      (fun st f hst => createStep_sizeInv crcF shaF lz4C zstdC dedup st f hst.1 hst.2)
      files CreateState.init
      ⟨fun e2 he2 => absurd he2 (List.not_mem_nil e2),
       fun kv hkv => absurd hkv (List.not_mem_nil kv)⟩
    unfold createIndex at h
    simp only [] at h
    revert h
    cases hres : resolvePending
        (List.foldl (createStep crcF shaF lz4C zstdC dedup) CreateState.init files).table
        (List.foldl (createStep crcF shaF lz4C zstdC dedup) CreateState.init files).pending with
    | none => intro h; exact Option.noConfusion h
    | some resolved =>
      intro h
      have hF := Option.some.inj h
      subst hF
      rcases List.mem_append.mp ((List.mem_insertionSort entryPathLe).mp he) with
        hdirect | hres2
      · exact hinv.1 e hdirect
      · exact resolvePending_sizeInv _ hinv.2 _ resolved hres e hres2
  · intro entries count idxs hin h I hI e he
    refine splitIndexesLoop_sizeInv ((splitAssign entries count).reverse) idxs ?_ h I hI e he
    intro s hs e2 he2
    exact hin e2 (splitAssign_entries_sub entries count s (List.mem_reverse.mp hs) e2 he2)

/-- Witness for `entry_body_size_sum`: the demo create run's first entry
and the first entry of the one-shard split of the two example entries both
satisfy the size invariant. -/
theorem entry_body_size_sum_witness :
    sizeInv demoE1 ∧
    sizeInv { info := exEntryB.info, file_index := 0, body_offset := 0, body_size := 5 } :=
  ⟨entry_body_size_sum.1 crcZero shaIdent idCodec idCodec true demoFiles demoF
      (by decide) demoE1 (by decide),
   entry_body_size_sum.2 [exEntryA, exEntryB] 1 [exSplitOut] (by decide) (by decide)
      exSplitOut (by decide) _ (by decide)⟩

theorem le_maxNat {x : Nat} : ∀ {l : List Nat}, x ∈ l → x ≤ maxNat l := by
  intro l
  induction l with
  | nil => intro h; exact absurd h (List.not_mem_nil x)
  | cons a as ih =>
    intro h
    rcases List.mem_cons.mp h with hh | ht
    · subst hh
      exact Nat.le_max_left x (maxNat as)
    · exact Nat.le_trans (ih ht) (Nat.le_max_right a (maxNat as))

theorem maxNat_le {m : Nat} : ∀ {l : List Nat}, (∀ x ∈ l, x ≤ m) → maxNat l ≤ m := by
  intro l
  induction l with
  | nil => intro _; exact Nat.zero_le m
  | cons a as ih =>
    intro h
    exact Nat.max_le.mpr ⟨h a (List.mem_cons_self a as),
      ih fun x hx => h x (List.mem_cons_of_mem a hx)⟩

theorem nat_le_sum_of_mem {x : Nat} : ∀ {l : List Nat}, x ∈ l → x ≤ l.sum := by
  intro l
  induction l with
  | nil => intro h; exact absurd h (List.not_mem_nil x)
  | cons a as ih =>
    intro h
    rw [List.sum_cons]
    rcases List.mem_cons.mp h with hh | ht
    · subst hh
      exact Nat.le_add_right x as.sum
    · exact Nat.le_trans (ih ht) (Nat.le_add_left as.sum a)

theorem mul_length_le_sum : ∀ (l : List Nat) (m : Nat),
    (∀ x ∈ l, m ≤ x) → m * l.length ≤ l.sum := by
  intro l
  induction l with
  | nil => intro m _; simp
  | cons a as ih =>
    intro m h
    have h1 := ih m fun x hx => h x (List.mem_cons_of_mem a hx)
    have h2 := h a (List.mem_cons_self a as)
    rw [List.sum_cons, List.length_cons, Nat.mul_succ]
    omega

theorem length_updateAt {α : Type} (f : α → α) :
    ∀ (i : Nat) (l : List α), (updateAt i f l).length = l.length := by
  intro i l
  induction l generalizing i with
  | nil => cases i <;> rfl
  | cons a as ih =>
    cases i with
    | zero => rfl
    | succ j => simpa [updateAt] using ih j

theorem getD_mem {α : Type} (d : α) :
    ∀ (l : List α) (i : Nat), i < l.length → l.getD i d ∈ l := by
  intro l
  induction l with
  | nil => intro i h; simp at h
  | cons a as ih =>
    intro i h
    cases i with
    | zero => exact List.mem_cons_self a as
    | succ j =>
      simp only [List.getD_cons_succ]
      exact List.mem_cons_of_mem a (ih j (by simpa using h))

theorem getD_updateAt_self {α : Type} (f : α → α) (d : α) :
    ∀ (l : List α) (i : Nat), i < l.length →
      (updateAt i f l).getD i d = f (l.getD i d) := by
  intro l
  induction l with
  | nil => intro i h; simp at h
  | cons a as ih =>
    intro i h
    cases i with
    | zero => rfl
    | succ j =>
      show (updateAt j f as).getD j d = _
      exact ih j (by simpa using h)

theorem getD_updateAt_ne {α : Type} (f : α → α) (d : α) :
    ∀ (l : List α) (i j : Nat), j ≠ i →
      (updateAt i f l).getD j d = l.getD j d := by
  intro l
  induction l with
  | nil => intro i j _; cases i <;> rfl
  | cons a as ih =>
    intro i j hne
    cases i with
    | zero =>
      cases j with
      | zero => exact absurd rfl hne
      | succ k => rfl
    | succ i2 =>
      cases j with
      | zero => rfl
      | succ k =>
        show (updateAt i2 f as).getD k d = as.getD k d
        exact ih i2 k (by omega)

theorem mem_updateAt_getD {α : Type} (f : α → α) (d : α) :
    ∀ (i : Nat) (l : List α) (x : α), x ∈ updateAt i f l →
      x ∈ l ∨ (i < l.length ∧ x = f (l.getD i d)) := by
  intro i l
  induction l generalizing i with
  | nil => intro x hx; simp [updateAt] at hx
  | cons a as ih =>
    intro x hx
    cases i with
    | zero =>
      rcases List.mem_cons.mp hx with hh | ht
      · exact Or.inr ⟨by simp, hh⟩
      · exact Or.inl (List.mem_cons_of_mem a ht)
    | succ j =>
      rcases List.mem_cons.mp hx with hh | ht
      · exact Or.inl (hh ▸ List.mem_cons_self a as)
      · rcases ih j x ht with hl | ⟨hj, hxf⟩
        · exact Or.inl (List.mem_cons_of_mem a hl)
        · exact Or.inr ⟨by simpa using hj, hxf⟩

theorem sum_map_updateAt {α : Type} (f : α → α) (g : α → Nat) (d : α) :
    ∀ (l : List α) (i : Nat), i < l.length →
      ((updateAt i f l).map g).sum + g (l.getD i d) =
        (l.map g).sum + g (f (l.getD i d)) := by
  intro l
  induction l with
  | nil => intro i h; simp at h
  | cons a as ih =>
    intro i h
    cases i with
    | zero =>
      show g (f a) + (as.map g).sum + g a = g a + (as.map g).sum + g (f a)
      omega
    | succ j =>
      have ihj := ih j (by simpa using h)
      simp only [show updateAt (j + 1) f (a :: as) = a :: updateAt j f as from rfl,
        List.map_cons, List.sum_cons, List.getD_cons_succ]
      omega

theorem alookup_mem_pair {α : Type} {k : List Nat} {v : α} :
    ∀ {l : List (List Nat × α)}, alookup k l = some v → (k, v) ∈ l := by
  intro l
  induction l with
  | nil => intro h; exact Option.noConfusion h
  | cons kv rest ih =>
    intro h
    unfold alookup at h
    split_ifs at h with hk
    · have hv := Option.some.inj h
      subst hk
      have : (kv.1, v) = kv := by
        rw [← hv]
      rw [this]
      exact List.mem_cons_self kv rest
    · exact List.mem_cons_of_mem kv (ih h)

theorem ChunkedFile.add_of_mem {s : ChunkedFile} {e : FileEntry}
    (h : e.info.original_sha256 ∈ s.well_known_hashes) :
    (s.add e).size = s.size ∧ (s.add e).well_known_hashes = s.well_known_hashes := by
  unfold ChunkedFile.add
  rw [if_pos h]
  exact ⟨rfl, rfl⟩

theorem ChunkedFile.add_size_cases (s : ChunkedFile) (e : FileEntry) :
    (s.add e).size = s.size ∨ (s.add e).size = s.size + entrySize e := by
  unfold ChunkedFile.add
  split_ifs
  · exact Or.inl rfl
  · exact Or.inr rfl

theorem ChunkedFile.add_wellKnown_sub {s : ChunkedFile} {h0 : List Nat}
    (h : h0 ∈ s.well_known_hashes) (e : FileEntry) :
    h0 ∈ (s.add e).well_known_hashes := by
  unfold ChunkedFile.add
  split_ifs
  · exact h
  · exact List.mem_cons_of_mem _ h

theorem ChunkedFile.add_wellKnown_self (s : ChunkedFile) (e : FileEntry) :
    e.info.original_sha256 ∈ (s.add e).well_known_hashes := by
  unfold ChunkedFile.add
  split_ifs with h
  · exact h
  · exact List.mem_cons_self _ _

theorem entrySize_le_entryWeight (e : FileEntry) : entrySize e ≤ entryWeight e := by
  unfold entrySize entryWeight
  apply List.sum_le_sum
  intro c _
  by_cases h : c.compressed_length = 0
  · simp [h]
  · simp [h]

theorem minIndexAux_spec :
    ∀ (l : List ChunkedFile) (i : Nat) (best : Nat × Nat),
      (minIndexAux l i best = best ∧ ∀ s ∈ l, best.1 ≤ s.size) ∨
      (∃ j, j < l.length ∧ (minIndexAux l i best).2 = i + j ∧
        (minIndexAux l i best).1 = (l.getD j ChunkedFile.new).size ∧
        (minIndexAux l i best).1 < best.1 ∧
        ∀ s ∈ l, (minIndexAux l i best).1 ≤ s.size) := by
  intro l
  induction l with
  | nil =>
    intro i best
    left
    exact ⟨rfl, fun s hs => absurd hs (List.not_mem_nil s)⟩
  | cons a as ih =>
    intro i best
    unfold minIndexAux
    by_cases ha : a.size < best.1
    · rw [if_pos ha]
      rcases ih (i + 1) (a.size, i) with ⟨heq, hall⟩ | ⟨j, hj, h2, h3, h4, hall⟩
      · right
        refine ⟨0, by simp, ?_, ?_, ?_, ?_⟩
        · rw [heq]
          omega
        · rw [heq]
          simp [List.getD_cons_zero]
        · rw [heq]
          exact ha
        · intro s hs
          rw [heq]
          rcases List.mem_cons.mp hs with hh | ht
          · subst hh
            exact Nat.le_refl _
          · exact hall s ht
      · right
        refine ⟨j + 1, by simpa using hj, by rw [h2]; omega, by simpa using h3,
          Nat.lt_trans h4 ha, ?_⟩
        intro s hs
        rcases List.mem_cons.mp hs with hh | ht
        · subst hh
          exact Nat.le_of_lt h4
        · exact hall s ht
    · rw [if_neg ha]
      rcases ih (i + 1) best with ⟨heq, hall⟩ | ⟨j, hj, h2, h3, h4, hall⟩
      · left
        refine ⟨heq, ?_⟩
        intro s hs
        rcases List.mem_cons.mp hs with hh | ht
        · subst hh
          exact Nat.le_of_not_lt ha
        · exact hall s ht
      · right
        refine ⟨j + 1, by simpa using hj, by rw [h2]; omega, by simpa using h3, h4, ?_⟩
        intro s hs
        rcases List.mem_cons.mp hs with hh | ht
        · subst hh
          exact Nat.le_trans (Nat.le_of_lt h4) (Nat.le_of_not_lt ha)
        · exact hall s ht

theorem minIndex_spec (shards : List ChunkedFile)
    (h : ∃ s ∈ shards, s.size < U64MAX) :
    minIndex shards < shards.length ∧
    ∀ s ∈ shards, (shards.getD (minIndex shards) ChunkedFile.new).size ≤ s.size := by
  unfold minIndex
  rcases minIndexAux_spec shards 0 (U64MAX, 0) with ⟨_, hall⟩ | ⟨j, hj, h2, h3, _, hall⟩
  · exfalso
    rcases h with ⟨s, hs, hlt⟩
    exact absurd (hall s hs) (Nat.not_le.mpr hlt)
  · constructor
    · rw [h2]
      omega
    · intro s hs
      rw [h2, Nat.zero_add, ← h3]
      exact hall s hs

theorem assignLoop_bound (n B : Nat) (hn : 0 < n) :
    ∀ (es : List FileEntry) (shards : List ChunkedFile) (seen : List (List Nat × Nat)),
      shards.length = n →
      (∀ hi ∈ seen, hi.2 < n ∧
        hi.1 ∈ (shards.getD hi.2 ChunkedFile.new).well_known_hashes) →
      (shards.map ChunkedFile.size).sum + (es.map entrySize).sum < U64MAX →
      (∀ s ∈ shards, s.size ≤ (shards.map ChunkedFile.size).sum / n + B) →
      (∀ e ∈ es, entrySize e ≤ B) →
      (assignLoop es shards seen).1.length = n ∧
      ∀ s ∈ (assignLoop es shards seen).1,
        s.size ≤ ((assignLoop es shards seen).1.map ChunkedFile.size).sum / n + B := by
  intro es
  induction es with
  | nil =>
    intro shards seen hlen _ _ hW _
    exact ⟨hlen, hW⟩
  | cons e0 rest ih =>
    intro shards seen hlen hseen hsum hW hB
    have hw_le : entrySize e0 ≤ B := hB e0 (List.mem_cons_self e0 rest)
    have hmaps : ((e0 :: rest).map entrySize).sum =
        entrySize e0 + (rest.map entrySize).sum := by
      simp
    unfold assignLoop
    cases halk : alookup e0.info.original_sha256 seen with
    | some i =>
      obtain ⟨hi_lt, hi_wk⟩ := hseen (e0.info.original_sha256, i) (alookup_mem_pair halk)
      have hi_len : i < shards.length := by omega
      have hadd := ChunkedFile.add_of_mem (s := shards.getD i ChunkedFile.new) (e := e0) hi_wk
      have hsum_id := sum_map_updateAt (fun s => s.add e0) ChunkedFile.size
        ChunkedFile.new shards i hi_len
      simp only [] at hsum_id
      have hsums_eq : ((updateAt i (fun s => s.add e0) shards).map ChunkedFile.size).sum =
          (shards.map ChunkedFile.size).sum := by
        omega
      refine ih (updateAt i (fun s => s.add e0) shards) seen ?_ ?_ ?_ ?_ ?_
      · rw [length_updateAt]
        exact hlen
      · intro hi2 hmem
        obtain ⟨hlt, hwk⟩ := hseen hi2 hmem
        refine ⟨hlt, ?_⟩
        by_cases hji : hi2.2 = i
        · rw [hji, getD_updateAt_self (fun s => s.add e0) ChunkedFile.new shards i hi_len]
          exact ChunkedFile.add_wellKnown_sub (hji ▸ hwk) e0
        · rw [getD_updateAt_ne (fun s => s.add e0) ChunkedFile.new shards i hi2.2 hji]
          exact hwk
      · rw [hsums_eq]
        omega
      · intro s hs
        rw [hsums_eq]
        rcases mem_updateAt_getD (fun s => s.add e0) ChunkedFile.new i shards s hs with
          hmem | ⟨_, hs_eq⟩
        · exact hW s hmem
        · simp only [] at hs_eq
          rw [hs_eq]
          have := hW (shards.getD i ChunkedFile.new) (getD_mem ChunkedFile.new shards i hi_len)
          omega
      · intro e he
        exact hB e (List.mem_cons_of_mem e0 he)
    | none =>
      have hex : ∃ s ∈ shards, s.size < U64MAX := by
        have hne : shards ≠ [] := by
          intro h
          rw [h] at hlen
          simp at hlen
          omega
        obtain ⟨s, hs⟩ := List.exists_mem_of_ne_nil shards hne
        refine ⟨s, hs, ?_⟩
        have hmem : s.size ∈ shards.map ChunkedFile.size := List.mem_map_of_mem _ hs
        have hle := nat_le_sum_of_mem hmem
        omega
      obtain ⟨hmin_lt, hmin_le⟩ := minIndex_spec shards hex
      have hmul : (shards.getD (minIndex shards) ChunkedFile.new).size * n ≤
          (shards.map ChunkedFile.size).sum := by
        have h1 := mul_length_le_sum (shards.map ChunkedFile.size)
          (shards.getD (minIndex shards) ChunkedFile.new).size ?_
        · rw [List.length_map, hlen] at h1
          exact h1
        · intro x hx
          rcases List.mem_map.mp hx with ⟨s, hs, hxs⟩
          exact hxs ▸ hmin_le s hs
      have hs0_div : (shards.getD (minIndex shards) ChunkedFile.new).size ≤
          (shards.map ChunkedFile.size).sum / n :=
        (Nat.le_div_iff_mul_le hn).mpr hmul
      have hsum_id := sum_map_updateAt (fun s => s.add e0) ChunkedFile.size
        ChunkedFile.new shards (minIndex shards) hmin_lt
      simp only [] at hsum_id
      have hadd_cases := ChunkedFile.add_size_cases (shards.getD (minIndex shards)
        ChunkedFile.new) e0
      have hs_between :
          (shards.map ChunkedFile.size).sum ≤
            ((updateAt (minIndex shards) (fun s => s.add e0) shards).map
              ChunkedFile.size).sum ∧
          ((updateAt (minIndex shards) (fun s => s.add e0) shards).map
              ChunkedFile.size).sum ≤
            (shards.map ChunkedFile.size).sum + entrySize e0 := by
        rcases hadd_cases with h | h <;> omega
      have hdiv_mono : (shards.map ChunkedFile.size).sum / n ≤
          ((updateAt (minIndex shards) (fun s => s.add e0) shards).map
            ChunkedFile.size).sum / n :=
        Nat.div_le_div_right hs_between.1
      refine ih (updateAt (minIndex shards) (fun s => s.add e0) shards)
        ((e0.info.original_sha256, minIndex shards) :: seen) ?_ ?_ ?_ ?_ ?_
      · rw [length_updateAt]
        exact hlen
      · intro hi2 hmem
        rcases List.mem_cons.mp hmem with hh | ht
        · subst hh
          refine ⟨by omega, ?_⟩
          rw [getD_updateAt_self (fun s => s.add e0) ChunkedFile.new shards
            (minIndex shards) hmin_lt]
          exact ChunkedFile.add_wellKnown_self _ e0
        · obtain ⟨hlt, hwk⟩ := hseen hi2 ht
          refine ⟨hlt, ?_⟩
          by_cases hji : hi2.2 = minIndex shards
          · rw [hji, getD_updateAt_self (fun s => s.add e0) ChunkedFile.new shards
              (minIndex shards) hmin_lt]
            exact ChunkedFile.add_wellKnown_sub (hji ▸ hwk) e0
          · rw [getD_updateAt_ne (fun s => s.add e0) ChunkedFile.new shards
              (minIndex shards) hi2.2 hji]
            exact hwk
      · omega
      · intro s hs
        rcases mem_updateAt_getD (fun s => s.add e0) ChunkedFile.new (minIndex shards)
          shards s hs with hmem | ⟨_, hs_eq⟩
        · have h1 := hW s hmem
          omega
        · simp only [] at hs_eq
          rw [hs_eq]
          have hle1 : ((shards.getD (minIndex shards) ChunkedFile.new).add e0).size ≤
              (shards.getD (minIndex shards) ChunkedFile.new).size + entrySize e0 := by
            rcases hadd_cases with h | h <;> omega
          omega
      · intro e he
        exact hB e (List.mem_cons_of_mem e0 he)

/-- C8: splitter load balance.  For every input index and every shard
count `N ≥ 1`, after the greedy descending-weight assignment with dedup
awareness, the largest shard's accumulated size is at most
(total accumulated size / N) + the largest single entry weight.  The side
condition bounds the total entry size below `u64::MAX` (the shard sizes
are `u64` accumulators in the program; the initial `min_size` of the
argmin scan is `u64::MAX`). -/
theorem splitter_load_balance (entries : List FileEntry) (count : Nat)
    (hn : 1 ≤ count) (hsum : (entries.map entrySize).sum < U64MAX) :
    maxNat ((splitAssign entries count).map ChunkedFile.size) ≤
      ((splitAssign entries count).map ChunkedFile.size).sum / count +
        maxNat (entries.map entryWeight) := by
  have hperm : (sortEntriesForSplit entries).Perm entries := by
    unfold sortEntriesForSplit
    exact (List.reverse_perm _).trans (List.perm_insertionSort entryWeightLe entries)
  have hsum2 : ((sortEntriesForSplit entries).map entrySize).sum =
      (entries.map entrySize).sum :=
    (hperm.map entrySize).sum_eq
  have hmap0 : ((List.replicate count ChunkedFile.new).map ChunkedFile.size).sum = 0 := by
    simp [List.map_replicate, ChunkedFile.new]
  have hmain := assignLoop_bound count (maxNat (entries.map entryWeight)) (by omega)
    (sortEntriesForSplit entries) (List.replicate count ChunkedFile.new) []
    (by simp)
    (fun hi hmem => absurd hmem (List.not_mem_nil hi))
    (by rw [hmap0, hsum2]; omega)
    (fun s hs => by
      have : s = ChunkedFile.new := List.eq_of_mem_replicate hs
      subst this
      exact Nat.zero_le _)
    (fun e he => by
      have hmem : e ∈ entries := hperm.mem_iff.mp he
      exact Nat.le_trans (entrySize_le_entryWeight e)
        (le_maxNat (List.mem_map_of_mem entryWeight hmem)))
  apply maxNat_le
  intro x hx
  rcases List.mem_map.mp hx with ⟨s, hs, hxs⟩
  subst hxs
  exact hmain.2 s hs

/-- Witness for `splitter_load_balance`: two entries over two shards. -/
theorem splitter_load_balance_witness :
    maxNat ((splitAssign [exEntryA, exEntryB] 2).map ChunkedFile.size) ≤
      ((splitAssign [exEntryA, exEntryB] 2).map ChunkedFile.size).sum / 2 +
        maxNat ([exEntryA, exEntryB].map entryWeight) :=
  splitter_load_balance [exEntryA, exEntryB] 2 (by decide) (by decide)

end Mayakashi
